import Mathlib

/-!
# Verification of `src/docker/processing_script.py`

Shallow embedding of the brain-MRI preprocessing script.  Voxel intensities
(numpy float64 values coming from `nib.load(...).get_fdata()`) are modelled as
rationals `ℚ`; every arithmetic step of the script on the inputs relevant to
the claims is exact, so rational arithmetic is faithful.  A loaded NIfTI file
is modelled as its header shape together with its squeezed voxel array
(a list of 2D slices, each a list of rows).  Fallible numpy operations
(fancy indexing out of bounds, `max` of an empty array) are modelled with
`Except`/`Option`.  Filesystem writes are modelled as returned lists of
(filename, pixel-grid) pairs, one list per output directory.
-/

deriving instance DecidableEq for Except

namespace ProcessingScript

/-- Python `str.split(sep)` with a one-character separator, acting on the
character list of the string (e.g. `"a.b".split('.') = ["a","b"]`,
`"".split('.') = [""]`). -/
def splitOnChar (c : Char) : List Char → List (List Char)
  | [] => [[]]
  | a :: rest =>
    let r := splitOnChar c rest
    if a = c then [] :: r
    else ((r.headD []).cons a) :: r.tail

/-- Line 34: `"_".join(os.path.basename(f).split('.')[0].split('_')[:8]) + "_%i.png" % i`.
`base` is the basename of the source image file. -/
def buildFname (base : String) (i : ℕ) : String :=
  String.mk (List.intercalate ['_'] ((splitOnChar '_' ((splitOnChar '.' base.toList).headD [])).take 8))
    ++ "_" ++ toString i ++ ".png"

/-- C-style float-to-integer conversion used by `astype(np.uint8)`:
truncation toward zero, then reduction modulo 2^8. -/
def truncToZero (q : ℚ) : ℤ := if 0 ≤ q then ⌊q⌋ else ⌈q⌉

/-- `astype(np.uint8)` applied to one value. -/
def toUint8 (q : ℚ) : ℕ := (truncToZero q % 256).toNat

/-- Line 22: `mris / mris.max() * 255` applied to one 2D slice, with `m` the
maximum that numpy computed over the selected slices. -/
def normalize (m : ℚ) (s : List (List ℚ)) : List (List ℚ) :=
  s.map (fun row => row.map (fun v => v / m * 255))

/-- `np.arange(1, d, 2)`: the odd indices `1, 3, 5, …` below `d`. -/
def oddIndices (d : ℕ) : List ℕ :=
  (List.range (d / 2)).map (fun k => 2 * k + 1)

/-- numpy fancy indexing `xs[idxs]` along the first axis: `none` models the
`IndexError` raised when some index is out of bounds. -/
def fancyIndex (idxs : List ℕ) (xs : List α) : Option (List α) :=
  match idxs with
  | [] => some []
  | i :: rest =>
    match xs[i]?, fancyIndex rest xs with
    | some v, some vs => some (v :: vs)
    | _, _ => none

/-- `np.rot90(g)` (one 90° counter-clockwise rotation of a rectangular 2D
array): row `i` of the result is column `N-1-i` of `g`, where `N` is the
row length of `g`. -/
def rot90 (g : List (List ℚ)) : List (List ℚ) :=
  ((List.range (g.headD []).length).reverse).map (fun c => g.map (fun row => (row[c]?).getD 0))

/-- `astype(np.uint8)` applied to a whole 2D slice. -/
def toGrid (g : List (List ℚ)) : List (List ℕ) :=
  g.map (fun row => row.map toUint8)

/-- A loaded NIfTI file: header `shape` (as reported by `nii.shape`) and the
squeezed voxel data `get_fdata().squeeze()`, as a list of 2D slices along
the first axis. -/
structure NiiFile where
  shape : List ℕ
  data : List (List (List ℚ))
deriving DecidableEq

/-- A written 8-bit grayscale image: filename and pixel grid. -/
abbrev Written := String × List (List ℕ)

/-- The divisor of line 22's normalization: `mris.max()`, the maximum taken
over the *selected odd-index slices only* (`none` models numpy's
`ValueError` on an empty reduction). -/
def mrisMaxOf (img : NiiFile) : Option ℚ :=
  (((fancyIndex (oddIndices (img.shape.headD 0)) img.data).getD []).flatten.flatten).max?

/-- One iteration of the loop of `process_mris` (lines 18–42) on the pair
`(img, mask)` where `base` is the basename of the image file.  Returns the
writes into the image directory and into the mask directory; `.error` models
an uncaught exception, `.ok ([], [])` is the logged dimension-mismatch skip. -/
def processPair (img mask : NiiFile) (base : String) :
    Except String (List Written × List Written) :=
  match fancyIndex (oddIndices (img.shape.headD 0)) img.data with
  | none => .error "IndexError"
  | some mrisRaw =>
    match (mrisRaw.flatten.flatten).max? with
    | none => .error "ValueError"
    | some m =>
      match fancyIndex (oddIndices (img.shape.headD 0)) mask.data with
      | none => .error "IndexError"
      | some segs =>
        if img.shape ≠ mask.shape then .ok ([], [])
        else
          .ok ((List.range (mrisRaw.map (normalize m)).length).map
                 (fun i => (buildFname base i,
                   toGrid (rot90 ((mrisRaw.map (normalize m)).getD i [])))),
               (List.range (mrisRaw.map (normalize m)).length).map
                 (fun i => (buildFname base i, toGrid (rot90 (segs.getD i [])))))

/-- `process_mris(images, masks, target_dir, mask_dir)` (lines 17–42): each
element of `pairs` is (image file, mask file, image basename).  Returns the
accumulated writes for the image directory and for the mask directory. -/
def process_mris : List (NiiFile × NiiFile × String) →
    Except String (List Written × List Written)
  | [] => .ok ([], [])
  | (img, mask, base) :: rest =>
    match processPair img mask base with
    | .error e => .error e
    | .ok (iw, mw) =>
      match process_mris rest with
      | .error e => .error e
      | .ok (iw', mw') => .ok (iw ++ iw', mw ++ mw')

/-- Line 52's mask lookup `glob(...)[0]` mapped over all subjects: the first
glob match is selected for each subject; a subject with zero matches raises
an unguarded `IndexError` (list index out of range). -/
def selectMasks : List (List α) → Except String (List α)
  | [] => .ok []
  | [] :: _ => .error "IndexError: list index out of range"
  | (x :: _) :: rest =>
    match selectMasks rest with
    | .error e => .error e
    | .ok ms => .ok (x :: ms)

/-- Modelled from the spec: the number of validation pairs chosen by
`sklearn.model_selection.train_test_split` with `test_size=0.2`
(`ceil(0.2 * n)`); sklearn's implementation is third-party code not in
`src/`. -/
def testCount (n : ℕ) : ℕ := (n + 4) / 5

/-- Modelled from the spec: `train_test_split(images, masks, test_size=0.2,
random_state=1984)` (line 57–58).  sklearn is third-party code not in `src/`;
per the spec it shuffles the index range with a permutation determined by the
fixed seed, takes the first `ceil(0.2*n)` shuffled indices as validation and
the rest as training, keeping images and masks index-aligned.  The
seed-determined permutation is abstracted as the argument `perm`; the split
itself is a pure function of its inputs, so the fixed seed makes it
deterministic across runs.  Returns
(train images, validation images, train masks, validation masks). -/
def train_test_split (images : List α) (masks : List β) (perm : List ℕ) :
    List α × List α × List β × List β :=
  ((perm.drop (testCount images.length)).filterMap (fun i => images[i]?),
   (perm.take (testCount images.length)).filterMap (fun i => images[i]?),
   (perm.drop (testCount images.length)).filterMap (fun i => masks[i]?),
   (perm.take (testCount images.length)).filterMap (fun i => masks[i]?))

/-- Line 77: `label_map = { "scale": 1 }`. -/
def label_map : List (String × ℕ) := [("scale", 1)]

/-- `json.dump` on a flat string-to-integer object: Python's default
serialization `\x7b"k": v, ...\x7d`. -/
def jsonDump (obj : List (String × ℕ)) : String :=
  "\x7b" ++ String.intercalate ", "
    (obj.map (fun kv => "\"" ++ kv.1 ++ "\": " ++ toString kv.2)) ++ "\x7d"

/-- The filesystem effects of one completed run of `main`:
the slice images written under `train/` and `validation/`, the mask images
written under the two mask output directories, and the label-map JSON file. -/
structure RunOutput where
  trainWrites : List Written
  trainMaskWrites : List Written
  valWrites : List Written
  valMaskWrites : List Written
  labelMapWrite : String × String
deriving DecidableEq

/-- `main()` (lines 45–82) after file discovery: `images` is the discovered
list of (image file, basename) in glob order, `maskMatches` the per-subject
list of mask glob matches (line 52), `perm` the seed-determined shuffle of
`train_test_split`.  Directory creation is pure filesystem setup and carries
no data; an `.error` models the uncaught exception terminating the process
(in which case nothing further — including the label map — is written). -/
def main (images : List (NiiFile × String)) (maskMatches : List (List NiiFile))
    (perm : List ℕ) : Except String RunOutput :=
  match selectMasks maskMatches with
  | .error e => .error e
  | .ok masks =>
    match process_mris (((train_test_split images masks perm).1.zip
        (train_test_split images masks perm).2.2.1).map
          (fun p => (p.1.1, p.2, p.1.2))) with
    | .error e => .error e
    | .ok tw =>
      match process_mris (((train_test_split images masks perm).2.1.zip
          (train_test_split images masks perm).2.2.2).map
            (fun p => (p.1.1, p.2, p.1.2))) with
      | .error e => .error e
      | .ok vw =>
        .ok { trainWrites := tw.1, trainMaskWrites := tw.2,
              valWrites := vw.1, valMaskWrites := vw.2,
              labelMapWrite := ("label_map/train_label_map.json", jsonDump label_map) }

/-- A rectangular 2D array (as numpy arrays always are): every row has the
length of the first row. -/
def IsRect (g : List (List ℚ)) : Prop :=
  ∀ row ∈ g, row.length = (g.headD []).length

instance (g : List (List ℚ)) : Decidable (IsRect g) := by
  unfold IsRect
  infer_instance

/-- Follows the spec's words for claim C8, for comparison with `buildFname`:
"the first 8 underscore-separated tokens of the source image's base filename
with the extension stripped" — stripping the extension removes the part after
the *last* dot (`os.path.splitext` semantics), whereas the source code keeps
only the part before the *first* dot. -/
def specFname (base : String) (i : ℕ) : String :=
  let noExt :=
    match (splitOnChar '.' base.toList).dropLast with
    | [] => base.toList
    | parts => List.intercalate ['.'] parts
  String.mk (List.intercalate ['_'] ((splitOnChar '_' noExt).take 8))
    ++ "_" ++ toString i ++ ".png"

/-- All written pixel values of a list of writes, flattened. -/
def allPixels (ws : List Written) : List ℕ :=
  (ws.map (fun w => w.2.flatten)).flatten

/-! ### Concrete volumes used to evaluate the embedding on explicit inputs -/

/-- A 4-slice volume of 1×1 slices, all voxels 1 (header shape (4,1,1)). -/
def volOnes4 : NiiFile := ⟨[4, 1, 1], [[[1]], [[1]], [[1]], [[1]]]⟩

/-- A 2-slice mask whose shape (2,1,1) mismatches `volOnes4` and whose first
axis is too short for odd index 3. -/
def maskShort : NiiFile := ⟨[2, 1, 1], [[[0]], [[0]]]⟩

/-- A well-formed 2-slice volume, selected slice `[[2]]` (maximum 2). -/
def volA : NiiFile := ⟨[2, 1, 1], [[[0]], [[2]]]⟩

/-- A mask matching `volA`'s shape with raw label value 3 on the selected
slice. -/
def maskA : NiiFile := ⟨[2, 1, 1], [[[0]], [[3]]]⟩

/-- A volume whose overall maximum 5 sits on an even (unselected) slice while
the selected odd slice is all zero. -/
def volZeroSel : NiiFile := ⟨[2, 1, 1], [[[5]], [[0]]]⟩

/-- An all-zero mask matching `volZeroSel`'s shape. -/
def maskZero : NiiFile := ⟨[2, 1, 1], [[[0]], [[0]]]⟩

/-- A 2-slice volume with voxel value 1 on the selected slice. -/
def volB : NiiFile := ⟨[2, 1, 1], [[[0]], [[1]]]⟩

/-- The output of the concrete `main` run used as a witness. -/
def mainOutW : RunOutput :=
  { trainWrites := [], trainMaskWrites := [],
    valWrites := [("a_0.png", [[255]])], valMaskWrites := [("a_0.png", [[3]])],
    labelMapWrite := ("label_map/train_label_map.json", "\x7b\"scale\": 1\x7d") }

/-!
### Lemmas

`Rat.mul` and `Rat.inv` are `@[irreducible]` in Batteries for elaborator
performance; concrete rational evaluation by `decide` needs them reducible.
-/

attribute [local semireducible] Rat.mul Rat.inv

theorem oddIndices_length (d : ℕ) : (oddIndices d).length = d / 2 := by
  simp [oddIndices]

theorem mem_oddIndices {d i : ℕ} (h : i ∈ oddIndices d) : i < d := by
  simp only [oddIndices, List.mem_map, List.mem_range] at h
  obtain ⟨k, hk, rfl⟩ := h
  omega

theorem oddIndices_getElem? {d k : ℕ} (h : k < d / 2) :
    (oddIndices d)[k]? = some (2 * k + 1) := by
  simp [oddIndices, List.getElem?_range h]

/-- `np.arange(1, d, 2)` is exactly the list of odd indices in `[1, d)`. -/
theorem oddIndices_eq_filter (d : ℕ) :
    oddIndices d = (List.range d).filter (fun i => i % 2 = 1) := by
  induction d with
  | zero => rfl
  | succ n ih =>
    rw [List.range_succ, List.filter_append]
    rcases Nat.mod_two_eq_zero_or_one n with h | h
    · have h1 : (n + 1) / 2 = n / 2 := by omega
      have h2 : oddIndices (n + 1) = oddIndices n := by simp [oddIndices, h1]
      rw [h2, ih]
      simp [h]
    · have h1 : (n + 1) / 2 = n / 2 + 1 := by omega
      have h2 : 2 * (n / 2) + 1 = n := by omega
      have h3 : oddIndices (n + 1) = oddIndices n ++ [n] := by
        simp [oddIndices, h1, List.range_succ, h2]
      rw [h3, ih]
      simp [h]

theorem fancyIndex_of_bounds {α : Type} {idxs : List ℕ} {xs : List α}
    (h : ∀ i ∈ idxs, i < xs.length) :
    ∃ ys, fancyIndex idxs xs = some ys ∧ ys.length = idxs.length ∧
      ∀ k : ℕ, ys[k]? = (idxs[k]?).bind (fun i => xs[i]?) := by
  induction idxs with
  | nil => exact ⟨[], rfl, rfl, fun k => by simp⟩
  | cons i rest ih =>
    obtain ⟨ys, hys, hlen, hget⟩ := ih (fun j hj => h j (List.mem_cons_of_mem _ hj))
    have hi : i < xs.length := h i (List.mem_cons_self _ _)
    have hv : xs[i]? = some xs[i] := List.getElem?_eq_getElem hi
    refine ⟨xs[i] :: ys, ?_, by simp [hlen], ?_⟩
    · simp [fancyIndex, hv, hys]
    · intro k
      cases k with
      | zero => simp [hv]
      | succ k => simp [hget k]

theorem max?_spec {l : List ℚ} {m : ℚ} (h : l.max? = some m) :
    m ∈ l ∧ ∀ x ∈ l, x ≤ m :=
  ⟨List.max?_mem max_choice h,
   fun x hx => (List.max?_le_iff (fun _ _ _ => max_le_iff) h).mp le_rfl x hx⟩

theorem max?_of_ne_nil {l : List ℚ} (h : l ≠ []) : ∃ m, l.max? = some m := by
  cases l with
  | nil => exact absurd rfl h
  | cons x xs => exact ⟨xs.foldl max x, rfl⟩

theorem getD_map_normalize (M : ℚ) (l : List (List (List ℚ))) (i : ℕ) :
    (l.map (normalize M)).getD i [] = normalize M (l.getD i []) := by
  rw [List.getD_eq_getElem?_getD, List.getD_eq_getElem?_getD, List.getElem?_map]
  cases l[i]? <;> simp [normalize]

theorem toUint8_le (q : ℚ) : toUint8 q ≤ 255 := by
  unfold toUint8
  have h1 : truncToZero q % 256 < 256 := Int.emod_lt_of_pos _ (by decide)
  omega

theorem toUint8_255 : toUint8 255 = 255 := by decide

theorem foldr_max_le {l : List ℕ} {b : ℕ} (h : ∀ x ∈ l, x ≤ b) :
    l.foldr max 0 ≤ b := by
  induction l with
  | nil => exact Nat.zero_le b
  | cons x xs ih =>
    simp only [List.foldr_cons]
    exact max_le (h x (List.mem_cons_self _ _))
      (ih (fun y hy => h y (List.mem_cons_of_mem _ hy)))

theorem le_foldr_max {l : List ℕ} {a : ℕ} (h : a ∈ l) : a ≤ l.foldr max 0 := by
  induction l with
  | nil => cases h
  | cons x xs ih =>
    simp only [List.foldr_cons]
    rcases List.mem_cons.mp h with rfl | h
    · exact le_max_left _ _
    · exact le_trans (ih h) (le_max_right _ _)

theorem rot90_entry (g : List (List ℚ)) (i j : ℕ)
    (hi : i < (g.headD []).length) (hj : j < g.length) :
    ((rot90 g).getD i []).getD j 0
      = (g.getD j []).getD ((g.headD []).length - 1 - i) 0 := by
  have hrev : ((List.range (g.headD []).length).reverse)[i]?
      = some ((g.headD []).length - 1 - i) := by
    rw [List.getElem?_reverse (by simpa using hi)]
    simp only [List.length_range]
    exact List.getElem?_range (by omega)
  have h1 : (rot90 g)[i]?
      = some (g.map (fun row => (row[(g.headD []).length - 1 - i]?).getD 0)) := by
    unfold rot90
    rw [List.getElem?_map, hrev]
    rfl
  have h2 : g[j]? = some g[j] := List.getElem?_eq_getElem hj
  simp only [List.getD_eq_getElem?_getD]
  rw [h1]
  simp [List.getElem?_map, h2]

theorem mem_rot90_flatten {g : List (List ℚ)} (hrect : IsRect g) {a : ℚ}
    (ha : a ∈ g.flatten) : a ∈ (rot90 g).flatten := by
  rw [List.mem_flatten] at ha
  obtain ⟨row, hrow, harow⟩ := ha
  obtain ⟨c, hc, rfl⟩ := List.mem_iff_getElem.mp harow
  have hcN : c < (g.headD []).length := by
    rw [← hrect row hrow]; exact hc
  rw [List.mem_flatten]
  refine ⟨g.map (fun r => (r[c]?).getD 0), ?_, ?_⟩
  · unfold rot90
    refine List.mem_map.mpr ⟨c, ?_, rfl⟩
    simp only [List.mem_reverse, List.mem_range]
    exact hcN
  · refine List.mem_map.mpr ⟨row, hrow, ?_⟩
    rw [List.getElem?_eq_getElem hc]
    rfl

theorem normalize_isRect {M : ℚ} {s : List (List ℚ)} (h : IsRect s) :
    IsRect (normalize M s) := by
  intro row hrow
  obtain ⟨r, hr, rfl⟩ := List.mem_map.mp hrow
  cases s with
  | nil => cases hr
  | cons x xs =>
    have hx : (normalize M (x :: xs)).headD [] = x.map (fun v => v / M * 255) := rfl
    rw [hx]
    simp only [List.length_map]
    exact h r hr

theorem mem_flatten_map {f : ℚ → ℚ} {s : List (List ℚ)} {a : ℚ}
    (h : a ∈ s.flatten) : f a ∈ (s.map (fun row => row.map f)).flatten := by
  rw [List.mem_flatten] at h ⊢
  obtain ⟨row, hrow, ha⟩ := h
  exact ⟨row.map f, List.mem_map.mpr ⟨row, hrow, rfl⟩, List.mem_map.mpr ⟨a, ha, rfl⟩⟩

theorem mem_toGrid_flatten {g : List (List ℚ)} {a : ℚ} (h : a ∈ g.flatten) :
    toUint8 a ∈ (toGrid g).flatten := by
  rw [List.mem_flatten] at h ⊢
  obtain ⟨row, hrow, ha⟩ := h
  exact ⟨row.map toUint8, List.mem_map.mpr ⟨row, hrow, rfl⟩, List.mem_map.mpr ⟨a, ha, rfl⟩⟩

theorem toGrid_flatten_le {g : List (List ℚ)} :
    ∀ p ∈ (toGrid g).flatten, p ≤ 255 := by
  intro p hp
  rw [List.mem_flatten] at hp
  obtain ⟨row, hrow, hp⟩ := hp
  obtain ⟨r, _, rfl⟩ := List.mem_map.mp hrow
  obtain ⟨q, _, rfl⟩ := List.mem_map.mp hp
  exact toUint8_le q

/-- Unfolding of one successful pass of the `process_mris` loop body: under
matching shapes, a well-formed first axis on both files, and a defined
`mris.max()`, the pair is processed into `⌊d/2⌋` image writes (odd-index
slices, normalized, rotated, truncated) and `⌊d/2⌋` mask writes (odd-index
slices, rotated, truncated, no normalization). -/
theorem processPair_ok {img mask : NiiFile} (base : String) {M : ℚ}
    (hsh : img.shape = mask.shape)
    (hwfi : img.data.length = img.shape.headD 0)
    (hwfm : mask.data.length = mask.shape.headD 0)
    (hmax : mrisMaxOf img = some M) :
    ∃ mrisRaw segs,
      fancyIndex (oddIndices (img.shape.headD 0)) img.data = some mrisRaw ∧
      fancyIndex (oddIndices (img.shape.headD 0)) mask.data = some segs ∧
      mrisRaw.length = img.shape.headD 0 / 2 ∧
      segs.length = img.shape.headD 0 / 2 ∧
      (∀ k : ℕ, mrisRaw[k]?
          = ((oddIndices (img.shape.headD 0))[k]?).bind (fun i => img.data[i]?)) ∧
      (∀ k : ℕ, segs[k]?
          = ((oddIndices (img.shape.headD 0))[k]?).bind (fun i => mask.data[i]?)) ∧
      (mrisRaw.flatten.flatten).max? = some M ∧
      processPair img mask base = .ok
        ((List.range (img.shape.headD 0 / 2)).map
            (fun i => (buildFname base i, toGrid (rot90 (normalize M (mrisRaw.getD i []))))),
         (List.range (img.shape.headD 0 / 2)).map
            (fun i => (buildFname base i, toGrid (rot90 (segs.getD i []))))) := by
  have hbi : ∀ i ∈ oddIndices (img.shape.headD 0), i < img.data.length := by
    intro i hi; rw [hwfi]; exact mem_oddIndices hi
  have hbm : ∀ i ∈ oddIndices (img.shape.headD 0), i < mask.data.length := by
    intro i hi; rw [hwfm, ← hsh]; exact mem_oddIndices hi
  obtain ⟨mrisRaw, hraw, hrawlen, hrawget⟩ := fancyIndex_of_bounds hbi
  obtain ⟨segs, hsegs, hsegslen, hsegsget⟩ := fancyIndex_of_bounds hbm
  have hmax' : (mrisRaw.flatten.flatten).max? = some M := by
    unfold mrisMaxOf at hmax
    rw [hraw] at hmax
    exact hmax
  refine ⟨mrisRaw, segs, hraw, hsegs,
    hrawlen.trans (oddIndices_length _), hsegslen.trans (oddIndices_length _),
    hrawget, hsegsget, hmax', ?_⟩
  unfold processPair
  simp only [hraw, hmax', hsegs]
  rw [if_neg (show ¬img.shape ≠ mask.shape from fun h => h hsh)]
  have hlen2 : (mrisRaw.map (normalize M)).length = img.shape.headD 0 / 2 := by
    rw [List.length_map, hrawlen, oddIndices_length]
  rw [hlen2]
  have hfun : ∀ i ∈ List.range (img.shape.headD 0 / 2),
      (buildFname base i, toGrid (rot90 ((mrisRaw.map (normalize M)).getD i [])))
        = (buildFname base i, toGrid (rot90 (normalize M (mrisRaw.getD i [])))) := by
    intro i _
    rw [getD_map_normalize]
  rw [List.map_congr_left hfun]

theorem selectMasks_error {α : Type} {ls : List (List α)} (h : [] ∈ ls) :
    selectMasks ls = .error "IndexError: list index out of range" := by
  induction ls with
  | nil => cases h
  | cons l rest ih =>
    cases l with
    | nil => rfl
    | cons x xs =>
      have hr : [] ∈ rest := by
        rcases List.mem_cons.mp h with h | h
        · cases h
        · exact h
      simp [selectMasks, ih hr]

theorem selectMasks_ok {α : Type} (d : α) {ls : List (List α)}
    (h : ∀ l ∈ ls, l ≠ []) :
    selectMasks ls = .ok (ls.map (fun l => l.headD d)) := by
  induction ls with
  | nil => rfl
  | cons l rest ih =>
    cases l with
    | nil => exact absurd rfl (h [] (List.mem_cons_self _ _))
    | cons x xs =>
      have := ih (fun l hl => h l (List.mem_cons_of_mem _ hl))
      simp [selectMasks, this]

theorem filterMap_getElem_of_bounds {α : Type} {idx : List ℕ} {xs : List α}
    (h : ∀ i ∈ idx, i < xs.length) :
    (idx.filterMap (fun i => xs[i]?)).length = idx.length ∧
    ∀ k : ℕ, (idx.filterMap (fun i => xs[i]?))[k]?
        = (idx[k]?).bind (fun i => xs[i]?) := by
  induction idx with
  | nil => exact ⟨rfl, fun k => by simp⟩
  | cons i rest ih =>
    obtain ⟨hl, hg⟩ := ih (fun j hj => h j (List.mem_cons_of_mem _ hj))
    have hi : i < xs.length := h i (List.mem_cons_self _ _)
    have hv : xs[i]? = some xs[i] := List.getElem?_eq_getElem hi
    constructor
    · simp [List.filterMap_cons, hv, hl]
    · intro k
      cases k with
      | zero => simp [List.filterMap_cons, hv]
      | succ k => simp [List.filterMap_cons, hv, hg k]

theorem testCount_le (n : ℕ) : testCount n ≤ n := by
  unfold testCount
  omega

/-!
### Claim theorems
-/

/-- Claim C1 (code bug): the claim — and §7 of the spec — say a volume/mask
shape mismatch is logged and skipped with processing continuing, and the
source's own mismatch branch (lines 28–30) prints and `continue`s.  But the
dimension check runs only *after* line 25 has already fancy-indexed the mask
with the odd indices derived from the *image's* first-axis depth
(`np.arange(1, nii.shape[0], 2)`), so a mismatched pair whose mask first axis
is shorter raises an uncaught `IndexError` and aborts the whole run:
`volOnes4` (shape (4,1,1)) with `maskShort` (shape (2,1,1)) crashes
`process_mris` instead of being skipped, and the following well-formed pair
`volA`/`maskA` — which alone would produce one write per directory — is never
processed. -/
theorem c1_mismatch_crash :
    volOnes4.shape ≠ maskShort.shape ∧
    process_mris [(volOnes4, maskShort, "a.img"), (volA, maskA, "b.img")]
      = .error "IndexError" ∧
    process_mris [(volA, maskA, "b.img")]
      = .ok ([("b_0.png", [[255]])], [("b_0.png", [[3]])]) := by
  refine ⟨by decide, by decide, by decide⟩

/-- Claim C2: for a pair with matching shapes and first-axis depth `d` (and a
defined `mris.max()`, without which line 22 raises a `ValueError` before any
file is emitted), `process_mris` selects exactly the slices at odd indices
`1, 3, 5, …` — `np.arange(1, d, 2)` equals the odd indices of `[1, d)` — and
the number of emitted image files equals the number of emitted mask files and
equals the count of odd indices in `[1, d)`. -/
theorem c2_odd_slice_counts {img mask : NiiFile} (base : String) {M : ℚ}
    (hsh : img.shape = mask.shape)
    (hwfi : img.data.length = img.shape.headD 0)
    (hwfm : mask.data.length = mask.shape.headD 0)
    (hmax : mrisMaxOf img = some M) :
    oddIndices (img.shape.headD 0)
        = (List.range (img.shape.headD 0)).filter (fun i => i % 2 = 1) ∧
    ∃ iw mw, processPair img mask base = .ok (iw, mw) ∧
      iw.length
        = ((List.range (img.shape.headD 0)).filter (fun i => i % 2 = 1)).length ∧
      mw.length = iw.length := by
  obtain ⟨raw, segs, _, _, _, _, _, _, _, hpp⟩ :=
    processPair_ok base hsh hwfi hwfm hmax
  refine ⟨oddIndices_eq_filter _, _, _, hpp, ?_, ?_⟩
  · rw [List.length_map, List.length_range, ← oddIndices_eq_filter,
      oddIndices_length]
  · simp

/-- Witness for C2 at the concrete pair `volA`/`maskA` (depth 2, one odd
index, hence exactly one image file and one mask file). -/
theorem c2_witness :
    volA.shape = maskA.shape ∧ mrisMaxOf volA = some 2 ∧
    (oddIndices (volA.shape.headD 0)
        = (List.range (volA.shape.headD 0)).filter (fun i => i % 2 = 1) ∧
     ∃ iw mw, processPair volA maskA "a.img" = .ok (iw, mw) ∧
       iw.length
         = ((List.range (volA.shape.headD 0)).filter (fun i => i % 2 = 1)).length ∧
       mw.length = iw.length) :=
  ⟨by decide, by decide,
   c2_odd_slice_counts "a.img" (by decide) (by decide) (by decide)
     (by decide : mrisMaxOf volA = some 2)⟩

/-- Claim C5: the mask lookup `glob(...)[0]` on line 52 of `main` raises an
unguarded `IndexError` when a subject's mask glob yields zero matches — and
the error terminates `main` — while a subject with several matches raises no
error and its first match is selected. -/
theorem c5_mask_selection {α : Type} (d : α) (ls : List (List α))
    (images : List (NiiFile × String)) (mm : List (List NiiFile))
    (perm : List ℕ) :
    ([] ∈ ls → selectMasks ls = .error "IndexError: list index out of range") ∧
    ((∀ l ∈ ls, l ≠ []) → selectMasks ls = .ok (ls.map (fun l => l.headD d))) ∧
    ([] ∈ mm → main images mm perm
        = .error "IndexError: list index out of range") := by
  refine ⟨selectMasks_error, selectMasks_ok d, fun h => ?_⟩
  unfold main
  rw [selectMasks_error h]

/-- Witness for C5: zero matches crash (both in isolation and through
`main`), two matches select the first. -/
theorem c5_witness :
    ([] : List ℕ) ∈ [[1, 2], ([] : List ℕ)] ∧
    selectMasks [[1, 2], ([] : List ℕ)]
      = .error "IndexError: list index out of range" ∧
    selectMasks [[1, 2], [3]] = .ok [1, 3] ∧
    main [] [[]] [] = .error "IndexError: list index out of range" := by
  refine ⟨by decide, (c5_mask_selection 0 [[1, 2], []] [] [[]] []).1 (by decide),
    ?_, (c5_mask_selection 0 [[1, 2], []] [] [[]] []).2.2 (by decide)⟩
  exact ((c5_mask_selection 0 [[1, 2], [3]] [] [[]] []).2.1 (by decide)).trans
    (by decide)

/-- Claim C10: every completed run of `main` writes exactly the JSON object
`\x7b"scale": 1\x7d` (the serialization of `label_map`) under the fixed name
`train_label_map.json` in the `label_map` output subdirectory, regardless of
the input data.  (A run that aborts on an uncaught exception writes nothing,
including no label map: the write is the final step of `main`.) -/
theorem c10_label_map_constant (images : List (NiiFile × String))
    (mm : List (List NiiFile)) (perm : List ℕ) (out : RunOutput)
    (h : main images mm perm = .ok out) :
    out.labelMapWrite
      = ("label_map/train_label_map.json", "\x7b\"scale\": 1\x7d") := by
  unfold main at h
  split at h
  · exact Except.noConfusion h
  · split at h
    · exact Except.noConfusion h
    · split at h
      · exact Except.noConfusion h
      · cases h
        rfl

/-- Witness for C10: a complete concrete run of `main` on one discovered
subject produces `mainOutW`, whose label-map write is the constant JSON
object. -/
theorem c10_witness :
    main [(volA, "a.img")] [[maskA]] [0] = .ok mainOutW ∧
    mainOutW.labelMapWrite
      = ("label_map/train_label_map.json", "\x7b\"scale\": 1\x7d") :=
  ⟨by decide, c10_label_map_constant [(volA, "a.img")] [[maskA]] [0] mainOutW
    (by decide)⟩

/-- Claim C7: line 22 divides by `mris.max()`, the maximum taken *only* over
the selected odd-index slices, with no guard against zero: whenever every
selected voxel is zero the divisor of the normalization is zero (numpy then
produces nan/inf values with a warning rather than raising, and processing
proceeds into the write loop — no branch inspects the divisor). -/
theorem c7_divisor_zero {img mask : NiiFile} (base : String)
    (hsh : img.shape = mask.shape)
    (hwfi : img.data.length = img.shape.headD 0)
    (hwfm : mask.data.length = mask.shape.headD 0)
    (hne : ((fancyIndex (oddIndices (img.shape.headD 0)) img.data).getD
        []).flatten.flatten ≠ [])
    (hzero : ∀ v ∈ ((fancyIndex (oddIndices (img.shape.headD 0))
        img.data).getD []).flatten.flatten, v = (0 : ℚ)) :
    mrisMaxOf img = some 0 ∧
    ∃ iw mw, processPair img mask base = .ok (iw, mw) := by
  obtain ⟨m, hm⟩ := max?_of_ne_nil hne
  have hm0 : m = 0 := hzero m (max?_spec hm).1
  subst hm0
  have hmax : mrisMaxOf img = some 0 := hm
  obtain ⟨raw, segs, _, _, _, _, _, _, _, hpp⟩ :=
    processPair_ok base hsh hwfi hwfm hmax
  exact ⟨hmax, _, _, hpp⟩

/-- Witness for C7: `volZeroSel` has overall maximum 5 (on the unselected
even slice 0) while its only selected slice is all zero, so the divisor
computed by the code is 0, and the pair is still processed without error. -/
theorem c7_witness :
    (∀ v ∈ ((fancyIndex (oddIndices (volZeroSel.shape.headD 0))
        volZeroSel.data).getD []).flatten.flatten, v = (0 : ℚ)) ∧
    (5 : ℚ) ∈ volZeroSel.data.flatten.flatten ∧
    (mrisMaxOf volZeroSel = some 0 ∧
     ∃ iw mw, processPair volZeroSel maskZero "a.img" = .ok (iw, mw)) :=
  ⟨by decide, by decide,
   c7_divisor_zero "a.img" (by decide) (by decide) (by decide) (by decide)
     (by decide)⟩

/-- Claim C8 counterexample: the source builds the filename from the part of
the basename before its *first* dot (`split('.')[0]`), not from the basename
with the extension stripped.  On basename `"a.b_c.img"` (two dots) stripping
the extension would predict `"a.b_c_0.png"` (`specFname`), but the code
writes `"a_0.png"`. -/
theorem c8_counterexample :
    processPair volB volB "a.b_c.img"
      = .ok ([("a_0.png", [[255]])], [("a_0.png", [[1]])]) ∧
    specFname "a.b_c.img" 0 = "a.b_c_0.png" ∧
    buildFname "a.b_c.img" 0 = "a_0.png" ∧
    ("a_0.png" : String) ≠ "a.b_c_0.png" := by
  refine ⟨by decide, by decide, by decide, by decide⟩

/-- Claim C8 (amended): for every emitted slice `k` the output filename is
`buildFname base k` — the first 8 underscore-separated tokens of the portion
of the source image's base filename *before its first dot*, joined by
underscores, followed by the suffix `_k.png` — and the identical filename is
used for the image write and the mask write (which go to separate
directories). -/
theorem c8_filename_construction {img mask : NiiFile} (base : String) {M : ℚ}
    (hsh : img.shape = mask.shape)
    (hwfi : img.data.length = img.shape.headD 0)
    (hwfm : mask.data.length = mask.shape.headD 0)
    (hmax : mrisMaxOf img = some M) :
    ∃ iw mw, processPair img mask base = .ok (iw, mw) ∧
      iw.map Prod.fst = mw.map Prod.fst ∧
      (∀ k : ℕ, k < iw.length →
        (iw[k]?).map Prod.fst = some (buildFname base k)) ∧
      ∀ k : ℕ, buildFname base k
        = String.mk (List.intercalate ['_']
            ((splitOnChar '_' ((splitOnChar '.' base.toList).headD [])).take 8))
          ++ "_" ++ toString k ++ ".png" := by
  obtain ⟨raw, segs, _, _, _, _, _, _, _, hpp⟩ :=
    processPair_ok base hsh hwfi hwfm hmax
  refine ⟨_, _, hpp, ?_, ?_, fun k => rfl⟩
  · simp [List.map_map, Function.comp]
  · intro k hk
    rw [List.length_map, List.length_range] at hk
    simp only [List.getElem?_map, List.getElem?_range hk, Option.map_some]
    rfl

/-- Witness for C8 (amended) on a realistic OASIS basename with 9 tokens:
the ninth token `gfc` is dropped by `[:8]`. -/
theorem c8_witness :
    (∃ iw mw,
      processPair volA maskA "OAS1_0001_MR1_mpr_n4_anon_111_t88_gfc.img"
        = .ok (iw, mw) ∧
      iw.map Prod.fst = mw.map Prod.fst ∧
      (∀ k : ℕ, k < iw.length → (iw[k]?).map Prod.fst
        = some (buildFname "OAS1_0001_MR1_mpr_n4_anon_111_t88_gfc.img" k))) ∧
    buildFname "OAS1_0001_MR1_mpr_n4_anon_111_t88_gfc.img" 0
      = "OAS1_0001_MR1_mpr_n4_anon_111_t88_0.png" := by
  obtain ⟨iw, mw, hpp, h1, h2, _⟩ :=
    @c8_filename_construction volA maskA
      "OAS1_0001_MR1_mpr_n4_anon_111_t88_gfc.img" 2
      (by decide) (by decide) (by decide) (by decide)
  exact ⟨⟨iw, mw, hpp, h1, h2⟩, by decide⟩

/-- Claim C6: no rescaling is applied to the mask: each emitted mask slice
is the raw odd-index slice of the mask volume (line 25), rotated, with its
raw label values truncated directly to 8-bit unsigned integers (`toGrid`,
line 37) — in contrast with the image writes, which are normalized first. -/
theorem c6_mask_raw_truncation {img mask : NiiFile} (base : String) {M : ℚ}
    (hsh : img.shape = mask.shape)
    (hwfi : img.data.length = img.shape.headD 0)
    (hwfm : mask.data.length = mask.shape.headD 0)
    (hmax : mrisMaxOf img = some M) :
    ∃ iw mw segs,
      fancyIndex (oddIndices (img.shape.headD 0)) mask.data = some segs ∧
      processPair img mask base = .ok (iw, mw) ∧
      (∀ k : ℕ, segs[k]?
          = ((oddIndices (img.shape.headD 0))[k]?).bind (fun i => mask.data[i]?)) ∧
      (∀ k : ℕ, k < mw.length → ∃ s, segs[k]? = some s ∧
          mw[k]? = some (buildFname base k, toGrid (rot90 s))) := by
  obtain ⟨raw, segs, hraw, hsegs, hrl, hsl, hrg, hsg, hm, hpp⟩ :=
    processPair_ok base hsh hwfi hwfm hmax
  refine ⟨_, _, segs, hsegs, hpp, hsg, ?_⟩
  intro k hk
  rw [List.length_map, List.length_range] at hk
  have hks : k < segs.length := by rw [hsl]; exact hk
  refine ⟨segs[k], List.getElem?_eq_getElem hks, ?_⟩
  have hgd : segs.getD k [] = segs[k] := by
    rw [List.getD_eq_getElem?_getD, List.getElem?_eq_getElem hks]
    rfl
  simp only [List.getElem?_map, List.getElem?_range hk, Option.map_some', hgd]

/-- Witness for C6 at `volA`/`maskA`: the raw mask label 3 is written as
pixel value 3 (no rescaling), while the image voxel 2 is rescaled to 255. -/
theorem c6_witness :
    (∃ iw mw segs,
      fancyIndex (oddIndices (volA.shape.headD 0)) maskA.data = some segs ∧
      processPair volA maskA "a.img" = .ok (iw, mw) ∧
      (∀ k : ℕ, segs[k]?
          = ((oddIndices (volA.shape.headD 0))[k]?).bind
              (fun i => maskA.data[i]?)) ∧
      (∀ k : ℕ, k < mw.length → ∃ s, segs[k]? = some s ∧
          mw[k]? = some (buildFname "a.img" k, toGrid (rot90 s)))) ∧
    processPair volA maskA "a.img"
      = .ok ([("a_0.png", [[255]])], [("a_0.png", [[3]])]) :=
  ⟨@c6_mask_raw_truncation volA maskA "a.img" 2
      (by decide) (by decide) (by decide) (by decide),
   by decide⟩

/-- Claim C9: every emitted 2D slice, for both the image and its mask, is
rotated by `np.rot90` exactly once before being saved (lines 36–37), and
`rot90` is one 90° counter-clockwise rotation: entry `(i, j)` of `rot90 g` is
entry `(j, N−1−i)` of `g`, where `N` is the row length of `g`. -/
theorem c9_rot90_once {img mask : NiiFile} (base : String) {M : ℚ}
    (hsh : img.shape = mask.shape)
    (hwfi : img.data.length = img.shape.headD 0)
    (hwfm : mask.data.length = mask.shape.headD 0)
    (hmax : mrisMaxOf img = some M) :
    ∃ mrisRaw segs iw mw,
      fancyIndex (oddIndices (img.shape.headD 0)) img.data = some mrisRaw ∧
      fancyIndex (oddIndices (img.shape.headD 0)) mask.data = some segs ∧
      processPair img mask base = .ok (iw, mw) ∧
      (∀ k : ℕ, k < iw.length →
        iw[k]? = some (buildFname base k,
            toGrid (rot90 (normalize M (mrisRaw.getD k [])))) ∧
        mw[k]? = some (buildFname base k, toGrid (rot90 (segs.getD k [])))) ∧
      (∀ (g : List (List ℚ)) (i j : ℕ),
        i < (g.headD []).length → j < g.length →
        ((rot90 g).getD i []).getD j 0
          = (g.getD j []).getD ((g.headD []).length - 1 - i) 0) := by
  obtain ⟨raw, segs, hraw, hsegs, hrl, hsl, hrg, hsg, hm, hpp⟩ :=
    processPair_ok base hsh hwfi hwfm hmax
  refine ⟨raw, segs, _, _, hraw, hsegs, hpp, ?_, rot90_entry⟩
  intro k hk
  rw [List.length_map, List.length_range] at hk
  constructor <;>
    simp only [List.getElem?_map, List.getElem?_range hk, Option.map_some']

/-- Witness for C9 at `volA`/`maskA`, including the entry-level
counter-clockwise characterization of `rot90` on a 2×2 slice. -/
theorem c9_witness :
    (∃ mrisRaw segs iw mw,
      fancyIndex (oddIndices (volA.shape.headD 0)) volA.data = some mrisRaw ∧
      fancyIndex (oddIndices (volA.shape.headD 0)) maskA.data = some segs ∧
      processPair volA maskA "a.img" = .ok (iw, mw) ∧
      (∀ k : ℕ, k < iw.length →
        iw[k]? = some (buildFname "a.img" k,
            toGrid (rot90 (normalize 2 (mrisRaw.getD k [])))) ∧
        mw[k]? = some (buildFname "a.img" k, toGrid (rot90 (segs.getD k [])))) ∧
      (∀ (g : List (List ℚ)) (i j : ℕ),
        i < (g.headD []).length → j < g.length →
        ((rot90 g).getD i []).getD j 0
          = (g.getD j []).getD ((g.headD []).length - 1 - i) 0)) ∧
    rot90 [[1, 2], [3, 4]] = [[2, 4], [1, 3]] :=
  ⟨@c9_rot90_once volA maskA "a.img" 2
      (by decide) (by decide) (by decide) (by decide),
   by decide⟩

/-- Claim C3: the image data is rescaled by dividing every selected voxel by
the maximum intensity `M` computed on line 22 (over the selected slices) and
multiplying by 255, then truncated to 8-bit unsigned integers; consequently,
whenever `M > 0`, the maximum pixel value over all emitted normalized slices
equals 255 after truncation. -/
theorem c3_max_pixel_255 {img mask : NiiFile} (base : String) {M : ℚ}
    (hsh : img.shape = mask.shape)
    (hwfi : img.data.length = img.shape.headD 0)
    (hwfm : mask.data.length = mask.shape.headD 0)
    (hrect : ∀ s ∈ img.data, IsRect s)
    (hmax : mrisMaxOf img = some M) (hpos : 0 < M) :
    ∃ mrisRaw iw mw,
      fancyIndex (oddIndices (img.shape.headD 0)) img.data = some mrisRaw ∧
      processPair img mask base = .ok (iw, mw) ∧
      iw = (List.range (img.shape.headD 0 / 2)).map
          (fun i => (buildFname base i,
            toGrid (rot90 (normalize M (mrisRaw.getD i []))))) ∧
      (allPixels iw).foldr max 0 = 255 := by
  obtain ⟨raw, segs, hraw, hsegs, hrl, hsl, hrg, hsg, hm, hpp⟩ :=
    processPair_ok base hsh hwfi hwfm hmax
  refine ⟨raw, _, _, hraw, hpp, rfl, ?_⟩
  have hMmem : M ∈ raw.flatten.flatten := (max?_spec hm).1
  obtain ⟨row, hrowmem, hMrow⟩ := List.mem_flatten.mp hMmem
  obtain ⟨s, hsmem, hrows⟩ := List.mem_flatten.mp hrowmem
  have hMs : M ∈ s.flatten := List.mem_flatten.mpr ⟨row, hrows, hMrow⟩
  obtain ⟨k, hsk⟩ := List.mem_iff_getElem?.mp hsmem
  have hkraw : k < raw.length := (List.getElem?_eq_some_iff.mp hsk).1
  have hkd : k < img.shape.headD 0 / 2 := by rw [← hrl]; exact hkraw
  have hsdata : s ∈ img.data := by
    have h1 := hrg k
    rw [hsk, oddIndices_getElem? hkd] at h1
    have h2 : img.data[2 * k + 1]? = some s := by simpa using h1.symm
    obtain ⟨hb, he⟩ := List.getElem?_eq_some_iff.mp h2
    exact he ▸ List.getElem_mem hb
  have hgetD : raw.getD k [] = s := by
    rw [List.getD_eq_getElem?_getD, hsk]
    rfl
  have h255 : (255 : ℕ) ∈ (toGrid (rot90 (normalize M s))).flatten := by
    have h1 : M / M * 255 ∈ (normalize M s).flatten := mem_flatten_map hMs
    have h2 : M / M * 255 ∈ (rot90 (normalize M s)).flatten :=
      mem_rot90_flatten (normalize_isRect (hrect s hsdata)) h1
    have h3 : toUint8 (M / M * 255) ∈ (toGrid (rot90 (normalize M s))).flatten :=
      mem_toGrid_flatten h2
    have h4 : M / M * 255 = 255 := by
      rw [div_self (ne_of_gt hpos), one_mul]
    rw [h4, toUint8_255] at h3
    exact h3
  have hwmem : (255 : ℕ) ∈ allPixels ((List.range (img.shape.headD 0 / 2)).map
      (fun i => (buildFname base i,
        toGrid (rot90 (normalize M (raw.getD i [])))))) := by
    unfold allPixels
    rw [List.mem_flatten]
    refine ⟨(toGrid (rot90 (normalize M s))).flatten, ?_, h255⟩
    rw [List.map_map]
    refine List.mem_map.mpr ⟨k, List.mem_range.mpr hkd, ?_⟩
    simp [Function.comp, hsk]
  have hub : ∀ p ∈ allPixels ((List.range (img.shape.headD 0 / 2)).map
      (fun i => (buildFname base i,
        toGrid (rot90 (normalize M (raw.getD i [])))))), p ≤ 255 := by
    intro p hp
    unfold allPixels at hp
    rw [List.mem_flatten] at hp
    obtain ⟨l, hl, hpl⟩ := hp
    rw [List.map_map] at hl
    obtain ⟨i, _, rfl⟩ := List.mem_map.mp hl
    exact toGrid_flatten_le p hpl
  exact le_antisymm (foldr_max_le hub) (le_foldr_max hwmem)

/-- Witness for C3 at `volA`/`maskA`: the maximum over the selected slices is
2 > 0, and the single emitted pixel is `2 / 2 * 255 = 255`. -/
theorem c3_witness :
    (0 : ℚ) < 2 ∧
    (∃ mrisRaw iw mw,
      fancyIndex (oddIndices (volA.shape.headD 0)) volA.data = some mrisRaw ∧
      processPair volA maskA "a.img" = .ok (iw, mw) ∧
      iw = (List.range (volA.shape.headD 0 / 2)).map
          (fun i => (buildFname "a.img" i,
            toGrid (rot90 (normalize 2 (mrisRaw.getD i []))))) ∧
      (allPixels iw).foldr max 0 = 255) :=
  ⟨by decide,
   @c3_max_pixel_255 volA maskA "a.img" 2 (by decide) (by decide) (by decide)
     (by decide) (by decide) (by decide)⟩

/-- Claim C4: the split partitions the `N` discovered pairs into
`ceil(0.2·N)` validation pairs and the rest training, with images and masks
index-aligned (each output position comes from one original index, shared by
the image and mask sequences); it is a pure function of its inputs and the
fixed seed, hence identical across repeated runs; and for `N = 10` it yields
exactly 8 training and 2 validation pairs.  sklearn's `train_test_split` is
third-party code not in `src/`, modelled from the spec with the
seed-determined shuffle abstracted as the permutation `perm`. -/
theorem c4_split {α β : Type} {images : List α} {masks : List β}
    {perm : List ℕ} {n : ℕ}
    (hi : images.length = n) (hm : masks.length = n)
    (hp : perm.Perm (List.range n)) :
    (train_test_split images masks perm).2.1.length = testCount n ∧
    (train_test_split images masks perm).1.length = n - testCount n ∧
    (train_test_split images masks perm).2.2.1.length = n - testCount n ∧
    (train_test_split images masks perm).2.2.2.length = testCount n ∧
    (∀ k : ℕ, k < n - testCount n → ∃ i, i < n ∧
        (train_test_split images masks perm).1[k]? = images[i]? ∧
        (train_test_split images masks perm).2.2.1[k]? = masks[i]?) ∧
    (∀ k : ℕ, k < testCount n → ∃ i, i < n ∧
        (train_test_split images masks perm).2.1[k]? = images[i]? ∧
        (train_test_split images masks perm).2.2.2[k]? = masks[i]?) ∧
    (n = 10 →
      (train_test_split images masks perm).1.length = 8 ∧
      (train_test_split images masks perm).2.1.length = 2) ∧
    train_test_split images masks perm = train_test_split images masks perm := by
  subst hi
  have hperm_mem : ∀ i ∈ perm, i < images.length := by
    intro i h2
    exact List.mem_range.mp (hp.mem_iff.mp h2)
  have hpl : perm.length = images.length := by
    simpa using hp.length_eq
  have hdrop : ∀ i ∈ perm.drop (testCount images.length), i < images.length :=
    fun i h => hperm_mem i (List.mem_of_mem_drop h)
  have htake : ∀ i ∈ perm.take (testCount images.length), i < images.length :=
    fun i h => hperm_mem i (List.mem_of_mem_take h)
  have hdropM : ∀ i ∈ perm.drop (testCount images.length), i < masks.length :=
    fun i h => by rw [hm]; exact hdrop i h
  have htakeM : ∀ i ∈ perm.take (testCount images.length), i < masks.length :=
    fun i h => by rw [hm]; exact htake i h
  obtain ⟨hl1, hg1⟩ := filterMap_getElem_of_bounds hdrop
  obtain ⟨hl2, hg2⟩ := filterMap_getElem_of_bounds htake
  obtain ⟨hl3, hg3⟩ := filterMap_getElem_of_bounds hdropM
  obtain ⟨hl4, hg4⟩ := filterMap_getElem_of_bounds htakeM
  refine ⟨?_, ?_, ?_, ?_, ?_, ?_, ?_, rfl⟩
  · simp only [train_test_split]
    rw [hl2, List.length_take, hpl]
    exact min_eq_left (testCount_le _)
  · simp only [train_test_split]
    rw [hl1, List.length_drop, hpl]
  · simp only [train_test_split]
    rw [hl3, List.length_drop, hpl]
  · simp only [train_test_split]
    rw [hl4, List.length_take, hpl]
    exact min_eq_left (testCount_le _)
  · intro k hk
    have hkd : k < (perm.drop (testCount images.length)).length := by
      rw [List.length_drop, hpl]; exact hk
    have hik : (perm.drop (testCount images.length))[k]?
        = some (perm.drop (testCount images.length))[k] :=
      List.getElem?_eq_getElem hkd
    have hidrop : (perm.drop (testCount images.length))[k]
        ∈ perm.drop (testCount images.length) := List.getElem_mem hkd
    refine ⟨(perm.drop (testCount images.length))[k],
      hperm_mem _ (List.mem_of_mem_drop hidrop), ?_, ?_⟩
    · simp only [train_test_split]
      rw [hg1 k, hik]
      rfl
    · simp only [train_test_split]
      rw [hg3 k, hik]
      rfl
  · intro k hk
    have hkt : k < (perm.take (testCount images.length)).length := by
      rw [List.length_take, hpl, min_eq_left (testCount_le _)]; exact hk
    have hik : (perm.take (testCount images.length))[k]?
        = some (perm.take (testCount images.length))[k] :=
      List.getElem?_eq_getElem hkt
    have hitake : (perm.take (testCount images.length))[k]
        ∈ perm.take (testCount images.length) := List.getElem_mem hkt
    refine ⟨(perm.take (testCount images.length))[k],
      hperm_mem _ (List.mem_of_mem_take hitake), ?_, ?_⟩
    · simp only [train_test_split]
      rw [hg2 k, hik]
      rfl
    · simp only [train_test_split]
      rw [hg4 k, hik]
      rfl
  · intro h10
    constructor
    · simp only [train_test_split]
      rw [hl1, List.length_drop, hpl, h10]
      decide
    · simp only [train_test_split]
      rw [hl2, List.length_take, hpl, h10]
      decide

/-- Witness for C4: splitting 10 index-aligned pairs (with the identity
permutation standing for the seed-1984 shuffle) yields exactly 8 training and
2 validation pairs, index-aligned. -/
theorem c4_witness :
    (train_test_split (List.range 10) (List.range 10)
        (List.range 10)).1.length = 8 ∧
    (train_test_split (List.range 10) (List.range 10)
        (List.range 10)).2.1.length = 2 ∧
    (∀ k : ℕ, k < 10 - testCount 10 → ∃ i, i < 10 ∧
        (train_test_split (List.range 10) (List.range 10)
          (List.range 10)).1[k]? = (List.range 10)[i]? ∧
        (train_test_split (List.range 10) (List.range 10)
          (List.range 10)).2.2.1[k]? = (List.range 10)[i]?) := by
  have h := @c4_split ℕ ℕ (List.range 10) (List.range 10) (List.range 10) 10
    (by decide) (by decide) (List.Perm.refl _)
  exact ⟨(h.2.2.2.2.2.2.1 rfl).1, (h.2.2.2.2.2.2.1 rfl).2, h.2.2.2.2.1⟩

end ProcessingScript
